import Mathlib

/-
  Verification of the ipfs path core (src/core/utils.js): the path parser
  parseIpfsPath and the resolver resolveIpfsPaths with its inner link-following
  loop (function follow).  External collaborators -- the multihash codec
  (multihashes.validate / multihashes.fromB58String), the identifier-text check
  (isIPFS.multihash) and the object-graph accessor (ipfs.object.get) -- are
  parameters of the embedding, exactly as the source consumes them.
-/

set_option linter.unusedVariables false

deriving instance DecidableEq for Except

namespace Ipfs

/-- One outbound named link of a fetched graph node: a link name and the
multihash (identifier bytes) of the target node. -/
structure Link where
  name : String
  multihash : List Nat
deriving DecidableEq, Repr

/-- A fetched DAG node as ipfs.object.get returns it: its own multihash field
and its ordered list of outbound links. -/
structure GraphNode where
  multihash : List Nat
  links : List Link
deriving DecidableEq, Repr

/-- Result of parseIpfsPath: the textual root segment and the link names. -/
structure ParsedPath where
  root : String
  links : List String
deriving DecidableEq, Repr

/-- The single parse error of the source: new Error from a bad ipfs ref path. -/
inductive PErr where
  | invalidPath
deriving DecidableEq, Repr

/-- The chars of the recognized leading marker of an ipfs path. -/
def ipfsMarker : List Char := ['/', 'i', 'p', 'f', 's', '/']

/-- The optional leading marker of the source regex: when the input starts with
the six marker characters they are consumed, otherwise the input is unchanged.
No backtracking is lost: a string starting with the marker can never match the
regex without consuming it, because the captured part cannot start with a
slash. -/
def stripMarker (t : List Char) : List Char :=
  if t.take 6 = ipfsMarker then t.drop 6 else t

/-- The optional single trailing slash of the source regex. -/
def dropTrailingSlash (t : List Char) : List Char :=
  match t.reverse with
  | '/' :: r => r.reverse
  | _ => t

/-- Splitting on the slash separator, as String.prototype.split does on the
captured group of the source regex. -/
def splitSlash : List Char → List (List Char)
  | [] => [[]]
  | c :: rest =>
    if c = '/' then [] :: splitSlash rest
    else
      match splitSlash rest with
      | [] => [[c]]
      | seg :: segs => (c :: seg) :: segs

/-- All segments of a split are non-empty: the well-formedness condition the
source regex imposes on the captured group. -/
def allNonempty (segs : List (List Char)) : Bool :=
  segs.all (fun seg => !seg.isEmpty)

/-- The purely syntactic part of the source regex match
(?:/ipfs/)?([^/]+(?:/[^/]+)*)/?$ : optionally consume the marker, optionally a
single trailing slash, and split the rest into slash-free non-empty segments.
Returns the segments of the captured group, or none when the regex fails. -/
def parseCore (t : List Char) : Option (List (List Char)) :=
  if allNonempty (splitSlash (dropTrailingSlash (stripMarker t))) then
    some (splitSlash (dropTrailingSlash (stripMarker t)))
  else none

/-- parseIpfsPath of the source: match the regex, throw on failure, split the
captured group into root and links, and throw the same error when the root
fails the isIPFS.multihash check (parameter mhValid). -/
def parseIpfsPath (mhValid : String → Bool) (s : String) :
    Except PErr ParsedPath :=
  match parseCore s.toList with
  | none => .error .invalidPath
  | some [] => .error .invalidPath
  | some (root :: links) =>
    if mhValid (String.mk root) then
      .ok ⟨String.mk root, links.map String.mk⟩
    else
      .error .invalidPath

/-- The errors a single path resolution can report through its callback. -/
inductive RErr where
  | invalidPath
  | invalidMultihash
  | typeError
  | fetchFailed (msg : String)
  | linkNotFound (missing : String) (under : List Nat)
deriving DecidableEq, Repr

/-- The inner link-following loop of resolveIpfsPaths: fetch the node at hash h
(ipfs.object.get), report a fetch error, and otherwise either finish with the
fetched node's own multihash field when no link names remain, or look up the
first link whose name equals the next link name and recurse on its target.
Returns the list of fetched hashes in order together with the callback
outcome. -/
def follow (graph : List Nat → Except String GraphNode) (h : List Nat)
    (links : List String) : List (List Nat) × Except RErr (List Nat) :=
  match graph h with
  | .error e => ([h], .error (.fetchFailed e))
  | .ok obj =>
    match links with
    | [] => ([h], .ok obj.multihash)
    | n :: rest =>
      match obj.links.find? (fun l => l.name == n) with
      | none => ([h], .error (.linkNotFound n obj.multihash))
      | some l =>
        (h :: (follow graph l.multihash rest).1, (follow graph l.multihash rest).2)

/-- The textual-input part of the per-path body of resolveIpfsPaths: parse the
path, report the parse error, convert the root with multihashes.fromB58String
(parameter fromB58), finish immediately when there are no links, and otherwise
run the link-following loop from the root hash.  Returns the fetch trace and
the callback outcome. -/
def resolveOneString (mhValid : String → Bool) (fromB58 : String → List Nat)
    (graph : List Nat → Except String GraphNode) (s : String) :
    List (List Nat) × Except RErr (List Nat) :=
  match parseIpfsPath mhValid s with
  | .error _ => ([], .error .invalidPath)
  | .ok p =>
    if p.links.isEmpty then ([], .ok (fromB58 p.root))
    else follow graph (fromB58 p.root) p.links

/-- An element of the ipfsPaths argument: a textual path or a raw (non-string)
multihash buffer. -/
inductive Input where
  | str (s : String)
  | raw (b : List Nat)
deriving DecidableEq, Repr

/-- One invocation of the per-input node-style callback cb: either cb(err) or
cb(null, value). -/
inductive CbEvent where
  | err (e : RErr)
  | ok (v : List Nat)
deriving DecidableEq, Repr

/-- The per-input body of the source's map over ipfsPaths, recording every
invocation of the callback cb in order, together with the graph fetch trace.
For a non-string input the source validates it (multihashes.validate, parameter
validBytes), calls cb(err) on failure WITHOUT returning, then calls
cb(null, path) and still falls through into parseIpfsPath, where calling
.match on a non-string throws a TypeError that is caught and reported through
cb a further time.  For a string input each branch returns after its single
callback. -/
def processOne (mhValid : String → Bool) (validBytes : List Nat → Bool)
    (fromB58 : String → List Nat)
    (graph : List Nat → Except String GraphNode) :
    Input → List CbEvent × List (List Nat)
  | .raw b =>
    ((if validBytes b then [] else [CbEvent.err .invalidMultihash]) ++
      [CbEvent.ok b, CbEvent.err .typeError], [])
  | .str s =>
    ([match (resolveOneString mhValid fromB58 graph s).2 with
      | .ok v => CbEvent.ok v
      | .error e => CbEvent.err e],
     (resolveOneString mhValid fromB58 graph s).1)

/-- resolveIpfsPaths maps the per-input body over the (already arrayified)
collection of paths, collecting per-input callback traces in input order. -/
def resolveIpfsPaths (mhValid : String → Bool) (validBytes : List Nat → Bool)
    (fromB58 : String → List Nat)
    (graph : List Nat → Except String GraphNode) (inputs : List Input) :
    List (List CbEvent × List (List Nat)) :=
  inputs.map (processOne mhValid validBytes fromB58 graph)

/-- Whether a character list contains two adjacent slashes. -/
def hasDD : List Char → Bool
  | a :: b :: rest => if a = '/' ∧ b = '/' then true else hasDD (b :: rest)
  | _ => false

/-- Concrete identifier-text check used in witnesses. -/
def mvDemo : String → Bool := fun r => r == "QmA"

/-- Identifier-text check that rejects everything, used in witnesses. -/
def mvNone : String → Bool := fun _ => false

/-- Identifier-text check accepting only the root abc, used in witnesses. -/
def mvAbc : String → Bool := fun r => r == "abc"

/-- Identifier-text check accepting only the root root, used in witnesses. -/
def mvRoot : String → Bool := fun r => r == "root"

/-- Concrete bytes validator used in witnesses: length-two buffers valid. -/
def vbDemo : List Nat → Bool := fun b => b.length == 2

/-- Concrete base58 decoder used in witnesses. -/
def fbDemo : String → List Nat := fun r => if r == "QmA" then [1] else [0]

/-- Concrete object graph used in witnesses: node 1 has one link x to node 2;
the node stored under hash 2 carries 9 as its own multihash field, so the
fetch key and the node's self-identifier differ. -/
def graphDemo : List Nat → Except String GraphNode := fun h =>
  if h = [1] then .ok ⟨[1], [⟨"x", [2]⟩]⟩
  else if h = [2] then .ok ⟨[9], []⟩
  else .error "node not found"

/-- Concrete object graph with duplicate link names, used in witnesses. -/
def graphDup : List Nat → Except String GraphNode := fun h =>
  if h = [1] then .ok ⟨[1], [⟨"a", [2]⟩, ⟨"a", [3]⟩]⟩
  else if h = [2] then .ok ⟨[2], []⟩
  else if h = [3] then .ok ⟨[3], []⟩
  else .error "node not found"

/-- Unfolding splitSlash at a slash. -/
theorem splitSlash_slash (rest : List Char) :
    splitSlash ('/' :: rest) = [] :: splitSlash rest := by
  simp [splitSlash]

/-- Unfolding splitSlash at a non-slash character. -/
theorem splitSlash_cons (c : Char) (rest : List Char) (hc : c ≠ '/') :
    splitSlash (c :: rest) =
      match splitSlash rest with
      | [] => [[c]]
      | seg :: segs => (c :: seg) :: segs := by
  simp [splitSlash, hc]

/-- splitSlash never returns the empty list of segments. -/
theorem splitSlash_ne_nil (t : List Char) : splitSlash t ≠ [] := by
  cases t with
  | nil => simp [splitSlash]
  | cons c rest =>
    by_cases hc : c = '/'
    · subst hc; simp [splitSlash]
    · rw [splitSlash_cons c rest hc]
      cases h : splitSlash rest <;> simp

/-- A character list all of whose slash-split segments are non-empty has no
two adjacent slashes and neither starts nor ends with a slash. -/
theorem splitSlash_good : ∀ (n : Nat) (t : List Char), t.length ≤ n →
    allNonempty (splitSlash t) = true →
    hasDD t = false ∧ t.head? ≠ some '/' ∧ t.getLast? ≠ some '/' := by
  intro n
  induction n with
  | zero =>
    intro t hlen hall
    have ht : t = [] := List.length_eq_zero.mp (Nat.le_zero.mp hlen)
    subst ht
    simp [splitSlash, allNonempty] at hall
  | succ n ih =>
    intro t hlen hall
    cases t with
    | nil => simp [splitSlash, allNonempty] at hall
    | cons c rest =>
      by_cases hc : c = '/'
      · subst hc
        rw [splitSlash_slash] at hall
        simp [allNonempty] at hall
      · cases rest with
        | nil =>
          refine ⟨rfl, ?_, ?_⟩ <;> simp [hc]
        | cons d rest' =>
          by_cases hd : d = '/'
          · subst hd
            have e2 : splitSlash (c :: '/' :: rest') = [c] :: splitSlash rest' := by
              rw [splitSlash_cons c _ hc, splitSlash_slash]
            rw [e2] at hall
            have hall' : allNonempty (splitSlash rest') = true := by
              simpa [allNonempty] using hall
            have hlen' : rest'.length ≤ n := by
              simp at hlen; omega
            obtain ⟨h1, h2, h3⟩ := ih rest' hlen' hall'
            have hne : rest' ≠ [] := by
              intro hz
              rw [hz] at hall'
              simp [splitSlash, allNonempty] at hall'
            obtain ⟨e, r'', rfl⟩ : ∃ e r'', rest' = e :: r'' := by
              cases rest' with
              | nil => exact absurd rfl hne
              | cons e r'' => exact ⟨e, r'', rfl⟩
            have he : e ≠ '/' := by
              intro hz; subst hz; simp at h2
            refine ⟨?_, by simp [hc], ?_⟩
            · simp [hasDD, hc, he]
              simpa [hasDD, he] using h1
            · rw [List.getLast?_cons_cons, List.getLast?_cons_cons]
              exact h3
          · obtain ⟨X, Y, e3⟩ : ∃ X Y, splitSlash (d :: rest') = (d :: X) :: Y := by
              rw [splitSlash_cons d rest' hd]
              cases h : splitSlash rest' with
              | nil => exact ⟨[], [], rfl⟩
              | cons seg segs => exact ⟨seg, segs, rfl⟩
            have e4 : splitSlash (c :: d :: rest') = (c :: d :: X) :: Y := by
              rw [splitSlash_cons c _ hc, e3]
            rw [e4] at hall
            have hall2 : allNonempty (splitSlash (d :: rest')) = true := by
              rw [e3]
              simpa [allNonempty] using hall
            have hlen2 : (d :: rest').length ≤ n := by
              simp at hlen ⊢; omega
            obtain ⟨h1, h2, h3⟩ := ih (d :: rest') hlen2 hall2
            refine ⟨?_, by simp [hc], ?_⟩
            · simpa [hasDD, hc, hd] using h1
            · rw [List.getLast?_cons_cons]
              exact h3

/-- Appending lists without adjacent slashes and without a slash-slash junction
yields a list without adjacent slashes. -/
theorem hasDD_append : ∀ (a b : List Char), hasDD a = false → hasDD b = false →
    ¬(a.getLast? = some '/' ∧ b.head? = some '/') → hasDD (a ++ b) = false := by
  intro a
  induction a with
  | nil =>
    intro b ha hb hj
    simpa using hb
  | cons c a' ih =>
    intro b ha hb hj
    cases a' with
    | nil =>
      cases b with
      | nil => simpa using ha
      | cons d b' =>
        have hcd : ¬(c = '/' ∧ d = '/') := by
          intro ⟨hx, hy⟩
          exact hj ⟨by simp [hx], by simp [hy]⟩
        simpa [hasDD, hcd] using hb
    | cons e a'' =>
      have hce : ¬(c = '/' ∧ e = '/') := by
        intro hcon
        simp [hasDD, hcon] at ha
      have ha' : hasDD (e :: a'') = false := by
        simpa [hasDD, hce] using ha
      have hj' : ¬((e :: a'').getLast? = some '/' ∧ b.head? = some '/') := by
        intro ⟨hx, hy⟩
        exact hj ⟨by rw [List.getLast?_cons_cons]; exact hx, hy⟩
      have key := ih b ha' hb hj'
      show hasDD (c :: e :: (a'' ++ b)) = false
      simpa [hasDD, hce] using key

/-- Either no trailing slash was dropped, or exactly one was. -/
theorem dropTrailingSlash_cases (t : List Char) :
    t = dropTrailingSlash t ∨ t = dropTrailingSlash t ++ ['/'] := by
  unfold dropTrailingSlash
  split
  · next r hr =>
    right
    conv_lhs => rw [← List.reverse_reverse t, hr, List.reverse_cons]
  · left; rfl

/-- Either the input did not start with the marker, or it is the marker
followed by the stripped rest. -/
theorem stripMarker_cases (t : List Char) :
    (t.take 6 ≠ ipfsMarker ∧ stripMarker t = t) ∨
      t = ipfsMarker ++ stripMarker t := by
  unfold stripMarker
  by_cases h : t.take 6 = ipfsMarker
  · right
    simp only [h, if_pos]
    conv_lhs => rw [← List.take_append_drop 6 t, h]
  · left
    exact ⟨h, by simp [h]⟩

/-- Every character list the regex accepts is free of adjacent slashes. -/
theorem parseCore_noDD (t : List Char) (segs : List (List Char))
    (h : parseCore t = some segs) : hasDD t = false := by
  unfold parseCore at h
  have hall : allNonempty (splitSlash (dropTrailingSlash (stripMarker t))) = true := by
    by_contra hx
    simp [hx] at h
  set s2 := dropTrailingSlash (stripMarker t) with hs2
  obtain ⟨hdd2, hh2, hl2⟩ := splitSlash_good s2.length s2 le_rfl hall
  have hs2ne : s2 ≠ [] := by
    intro hz
    rw [hz] at hall
    simp [splitSlash, allNonempty] at hall
  obtain ⟨c0, cs0, hc0⟩ : ∃ c0 cs0, s2 = c0 :: cs0 := by
    cases hz : s2 with
    | nil => exact absurd hz hs2ne
    | cons c0 cs0 => exact ⟨c0, cs0, rfl⟩
  have hc0ne : c0 ≠ '/' := by
    intro hz; subst hz; rw [hc0] at hh2; simp at hh2
  have hdd1 : hasDD (stripMarker t) = false ∧ (stripMarker t).head? ≠ some '/' := by
    rcases dropTrailingSlash_cases (stripMarker t) with hcase | hcase
    · rw [hcase, ← hs2]
      exact ⟨hdd2, hh2⟩
    · rw [hcase, ← hs2]
      constructor
      · apply hasDD_append s2 ['/'] hdd2 rfl
        intro ⟨hx, _⟩
        exact hl2 hx
      · rw [hc0]
        simpa using hc0ne
  rcases stripMarker_cases t with ⟨_, hcase⟩ | hcase
  · rw [← hcase]
    exact hdd1.1
  · rw [hcase]
    apply hasDD_append ipfsMarker (stripMarker t) (by decide) hdd1.1
    intro ⟨_, hy⟩
    exact hdd1.2 hy

/-- The fetch trace of the link-following loop is never empty: the node at the
entry hash is always fetched. -/
theorem follow_fst_ne_nil (graph : List Nat → Except String GraphNode)
    (h : List Nat) (links : List String) : (follow graph h links).1 ≠ [] := by
  unfold follow
  cases hg : graph h with
  | error e => simp
  | ok obj =>
    cases links with
    | nil => simp
    | cons n rest =>
      cases hf : obj.links.find? (fun l => l.name == n) <;> simp [hf]

/-- getLast? over a cons with a non-empty tail looks into the tail. -/
theorem getLast?_cons_of_ne_nil {α : Type} (a : α) (l : List α) (hl : l ≠ []) :
    (a :: l).getLast? = l.getLast? := by
  cases l with
  | nil => exact absurd rfl hl
  | cons b t => exact List.getLast?_cons_cons

/-- A successful link-following run fetches one node per remaining link name
plus the entry node. -/
theorem follow_ok_length (graph : List Nat → Except String GraphNode) :
    ∀ (links : List String) (h : List Nat) (r : List Nat),
      (follow graph h links).2 = .ok r →
      (follow graph h links).1.length = links.length + 1 := by
  intro links
  induction links with
  | nil =>
    intro h r hok
    unfold follow at hok ⊢
    cases hg : graph h with
    | error e => simp [hg] at hok
    | ok obj => simp [hg]
  | cons n rest ih =>
    intro h r hok
    unfold follow at hok ⊢
    cases hg : graph h with
    | error e => simp [hg] at hok
    | ok obj =>
      simp only [hg] at hok ⊢
      cases hf : obj.links.find? (fun l => l.name == n) with
      | none => simp [hf] at hok
      | some l =>
        simp only [hf] at hok ⊢
        simp [ih l.multihash r hok]

/-- A successful link-following run returns the multihash field of the node
object fetched last, whatever identifier that node was fetched under. -/
theorem follow_ok_getLast (graph : List Nat → Except String GraphNode) :
    ∀ (links : List String) (h : List Nat) (r : List Nat),
      (follow graph h links).2 = .ok r →
      ∃ hl node, (follow graph h links).1.getLast? = some hl ∧
        graph hl = .ok node ∧ r = node.multihash := by
  intro links
  induction links with
  | nil =>
    intro h r hok
    unfold follow at hok ⊢
    cases hg : graph h with
    | error e => simp [hg] at hok
    | ok obj =>
      simp only [hg] at hok ⊢
      refine ⟨h, obj, by simp, hg, ?_⟩
      simpa using hok.symm
  | cons n rest ih =>
    intro h r hok
    unfold follow at hok ⊢
    cases hg : graph h with
    | error e => simp [hg] at hok
    | ok obj =>
      simp only [hg] at hok ⊢
      cases hf : obj.links.find? (fun l => l.name == n) with
      | none => simp [hf] at hok
      | some l =>
        simp only [hf] at hok ⊢
        obtain ⟨hl, node, hlast, hnode, hr⟩ := ih l.multihash r hok
        refine ⟨hl, node, ?_, hnode, hr⟩
        rw [getLast?_cons_of_ne_nil _ _ (follow_fst_ne_nil graph l.multihash rest)]
        exact hlast

/-- find? over a decomposition whose front has no match returns the marked
first match. -/
theorem find?_first {α : Type} (p : α → Bool) :
    ∀ (pre : List α) (l : α) (post : List α),
      (∀ x ∈ pre, p x = false) → p l = true →
      (pre ++ l :: post).find? p = some l := by
  intro pre
  induction pre with
  | nil =>
    intro l post _ hl
    simpa using List.find?_cons_of_pos _ hl
  | cons x xs ih =>
    intro l post hpre hl
    have hx : p x = false := hpre x (by simp)
    rw [List.cons_append, List.find?_cons_of_neg _ (by simp [hx])]
    exact ih l post (fun y hy => hpre y (by simp [hy])) hl

/-- Extending a successful run with further link names that hit a node lacking
the wanted link keeps exactly the old fetch trace and fails with the missing
name and the multihash field of that node. -/
theorem follow_append_missing (graph : List Nat → Except String GraphNode) :
    ∀ (done : List String) (h : List Nat) (tr : List (List Nat)) (r : List Nat)
      (hlast : List Nat) (node : GraphNode) (n : String) (rest : List String),
      follow graph h done = (tr, .ok r) →
      tr.getLast? = some hlast →
      graph hlast = .ok node →
      node.links.find? (fun l => l.name == n) = none →
      follow graph h (done ++ n :: rest) =
        (tr, .error (.linkNotFound n node.multihash)) := by
  intro done
  induction done with
  | nil =>
    intro h tr r hlast node n rest hrun hlt hnode hfind
    unfold follow at hrun
    cases hg : graph h with
    | error e => rw [hg] at hrun; simp at hrun
    | ok obj =>
      rw [hg] at hrun
      simp only at hrun
      obtain ⟨htr, hr⟩ : tr = [h] ∧ (Except.ok obj.multihash : Except RErr (List Nat)) = .ok r := by
        refine ⟨(Prod.mk.injEq _ _ _ _ ▸ hrun).1.symm, (Prod.mk.injEq _ _ _ _ ▸ hrun).2⟩
      subst htr
      simp at hlt
      subst hlt
      have hobj : obj = node := by
        rw [hg] at hnode
        exact Except.ok.inj hnode
      subst hobj
      show follow graph h (n :: rest) = _
      unfold follow
      rw [hg]
      simp [hfind]
  | cons m ds ih =>
    intro h tr r hlast node n rest hrun hlt hnode hfind
    unfold follow at hrun
    cases hg : graph h with
    | error e => rw [hg] at hrun; simp at hrun
    | ok obj =>
      rw [hg] at hrun
      simp only at hrun
      cases hf : obj.links.find? (fun l => l.name == m) with
      | none => rw [hf] at hrun; simp at hrun
      | some l =>
        rw [hf] at hrun
        simp only at hrun
        obtain ⟨htr, hr⟩ := Prod.mk.injEq _ _ _ _ ▸ hrun
        have hfs : (follow graph l.multihash ds).2 = .ok r := hr
        have hlt' : (follow graph l.multihash ds).1.getLast? = some hlast := by
          rw [← htr] at hlt
          rwa [getLast?_cons_of_ne_nil _ _ (follow_fst_ne_nil graph l.multihash ds)] at hlt
        have key := ih l.multihash (follow graph l.multihash ds).1 r hlast node n rest
          (by rw [← hfs]) hlt' hnode hfind
        show follow graph h (m :: (ds ++ n :: rest)) = _
        unfold follow
        rw [hg]
        simp only [hf, key, htr]

/-- Helper: prepending the marker to a string concatenates its characters. -/
theorem toList_marker_append (s : String) :
    ("/ipfs/" ++ s).toList = ipfsMarker ++ s.toList := by
  cases s with
  | mk data => rfl

/-- Helper: stripMarker removes a leading marker. -/
theorem stripMarker_append (l : List Char) : stripMarker (ipfsMarker ++ l) = l := by
  unfold stripMarker
  rw [if_pos (show (ipfsMarker ++ l).take 6 = ipfsMarker from rfl)]
  exact rfl

/-- Claim C1: for a textual path whose parsed links are non-empty, a
successful resolution returns the multihash field of the node object actually
fetched last, whatever identifier the last-followed link stored. -/
theorem resolve_terminal_self_identifier
    (mhValid : String → Bool) (fromB58 : String → List Nat)
    (graph : List Nat → Except String GraphNode) (s : String)
    (root : String) (links : List String) (r : List Nat)
    (hparse : parseIpfsPath mhValid s = .ok ⟨root, links⟩)
    (hne : links ≠ [])
    (hok : (resolveOneString mhValid fromB58 graph s).2 = .ok r) :
    ∃ hl node, (resolveOneString mhValid fromB58 graph s).1.getLast? = some hl ∧
      graph hl = .ok node ∧ r = node.multihash := by
  obtain ⟨x, xs, rfl⟩ := List.exists_cons_of_ne_nil hne
  have hres : resolveOneString mhValid fromB58 graph s =
      follow graph (fromB58 root) (x :: xs) := by
    unfold resolveOneString
    rw [hparse]
    exact rfl
  rw [hres] at hok ⊢
  exact follow_ok_getLast graph (x :: xs) (fromB58 root) r hok

/-- Witness for claim C1 at the demo graph, where the terminal node was
fetched under hash 2 but carries 9 as its own multihash field. -/
theorem resolve_terminal_self_identifier_witness :
    (∃ hl node,
      (resolveOneString mvDemo fbDemo graphDemo "QmA/x").1.getLast? = some hl ∧
        graphDemo hl = .ok node ∧ [9] = node.multihash) ∧ ([9] : List Nat) ≠ [2] :=
  ⟨resolve_terminal_self_identifier mvDemo fbDemo graphDemo "QmA/x" "QmA" ["x"] [9]
      (by decide) (by decide) (by decide), by decide⟩

/-- Counterexample to claim C2 as stated: the path QmA/x has exactly one link
name but its successful resolution performs two graph fetches, the root node
and the link target, not one. -/
theorem fetch_count_counterexample :
    parseIpfsPath mvDemo "QmA/x" = .ok ⟨"QmA", ["x"]⟩ ∧
    (resolveOneString mvDemo fbDemo graphDemo "QmA/x").2 = .ok [9] ∧
    (resolveOneString mvDemo fbDemo graphDemo "QmA/x").1.length = 2 ∧
    (resolveOneString mvDemo fbDemo graphDemo "QmA/x").1.length ≠
      (["x"] : List String).length :=
  ⟨by decide, by decide, by decide, by decide⟩

/-- Claim C2 amended: a successful resolution of a textual path with N link
names performs exactly N plus one graph fetches, one for the root node and one
per link traversed. -/
theorem fetch_count_links_succ
    (mhValid : String → Bool) (fromB58 : String → List Nat)
    (graph : List Nat → Except String GraphNode) (s : String)
    (root : String) (links : List String) (r : List Nat)
    (hparse : parseIpfsPath mhValid s = .ok ⟨root, links⟩)
    (hne : links ≠ [])
    (hok : (resolveOneString mhValid fromB58 graph s).2 = .ok r) :
    (resolveOneString mhValid fromB58 graph s).1.length = links.length + 1 := by
  obtain ⟨x, xs, rfl⟩ := List.exists_cons_of_ne_nil hne
  have hres : resolveOneString mhValid fromB58 graph s =
      follow graph (fromB58 root) (x :: xs) := by
    unfold resolveOneString
    rw [hparse]
    exact rfl
  rw [hres] at hok ⊢
  exact follow_ok_length graph (x :: xs) (fromB58 root) r hok

/-- Witness for the amended claim C2 at the demo graph: one link, two
fetches. -/
theorem fetch_count_links_succ_witness :
    (resolveOneString mvDemo fbDemo graphDemo "QmA/x").1.length =
      (["x"] : List String).length + 1 :=
  fetch_count_links_succ mvDemo fbDemo graphDemo "QmA/x" "QmA" ["x"] [9]
    (by decide) (by decide) (by decide)

/-- Claim C3 evaluated at a failing input: a non-string input accepted by the
bytes validator is answered with cb of the input itself and then, because the
branch does not return, with a further cb carrying the TypeError raised by
text-parsing the non-string value. -/
theorem raw_valid_input_double_callback :
    processOne mvDemo vbDemo fbDemo graphDemo (.raw [0, 1]) =
      ([.ok [0, 1], .err .typeError], []) := by decide

/-- Claim C4: when the traversal reaches an already-fetched node that has no
outbound link whose name equals the next unconsumed link name, the input fails
with a link-not-found error carrying both the missing name and that node's
identifier, and no graph fetch beyond that node occurs. -/
theorem missing_link_error
    (mhValid : String → Bool) (fromB58 : String → List Nat)
    (graph : List Nat → Except String GraphNode) (s : String) (root : String)
    (done : List String) (n : String) (rest : List String)
    (tr : List (List Nat)) (r : List Nat) (hlast : List Nat) (node : GraphNode)
    (hparse : parseIpfsPath mhValid s = .ok ⟨root, done ++ n :: rest⟩)
    (hrun : follow graph (fromB58 root) done = (tr, .ok r))
    (hlt : tr.getLast? = some hlast)
    (hnode : graph hlast = .ok node)
    (hfind : node.links.find? (fun l => l.name == n) = none) :
    resolveOneString mhValid fromB58 graph s =
      (tr, .error (.linkNotFound n node.multihash)) := by
  have hres : resolveOneString mhValid fromB58 graph s =
      follow graph (fromB58 root) (done ++ n :: rest) := by
    unfold resolveOneString
    rw [hparse]
    cases done <;> rfl
  rw [hres]
  exact follow_append_missing graph done (fromB58 root) tr r hlast node n rest
    hrun hlt hnode hfind

/-- Witness for claim C4 at the demo graph: the node fetched under hash 2 has
no link named z, so QmA followed by x and z fails carrying z and the node's
own multihash field 9, with no third fetch. -/
theorem missing_link_error_witness :
    resolveOneString mvDemo fbDemo graphDemo "QmA/x/z" =
      ([[1], [2]], .error (.linkNotFound "z" [9])) :=
  missing_link_error mvDemo fbDemo graphDemo "QmA/x/z" "QmA" ["x"] "z" []
    [[1], [2]] [9] [2] ⟨[9], []⟩ (by decide) (by decide) (by decide) (by decide)
    (by decide)

/-- Claim C5: a textual path that parses to an empty link list resolves to the
base58-decoded root with an empty fetch trace. -/
theorem root_only_no_fetch
    (mhValid : String → Bool) (fromB58 : String → List Nat)
    (graph : List Nat → Except String GraphNode) (s : String) (root : String)
    (hparse : parseIpfsPath mhValid s = .ok ⟨root, []⟩) :
    resolveOneString mhValid fromB58 graph s = ([], .ok (fromB58 root)) := by
  unfold resolveOneString
  rw [hparse]
  exact rfl

/-- Witness for claim C5: the root-only path QmA resolves with zero fetches to
its decoded root. -/
theorem root_only_no_fetch_witness :
    resolveOneString mvDemo fbDemo graphDemo "QmA" = ([], .ok (fbDemo "QmA")) :=
  root_only_no_fetch mvDemo fbDemo graphDemo "QmA" "QmA" (by decide)

/-- Claim C6: parseIpfsPath rejects the empty string, the lone separator, and
every input containing two adjacent separators, whatever the identifier-text
check. -/
theorem parse_rejects_empty_and_double_slash :
    (∀ mhValid : String → Bool, parseIpfsPath mhValid "" = .error .invalidPath) ∧
    (∀ mhValid : String → Bool, parseIpfsPath mhValid "/" = .error .invalidPath) ∧
    (∀ (mhValid : String → Bool) (s : String), hasDD s.toList = true →
      parseIpfsPath mhValid s = .error .invalidPath) := by
  refine ⟨fun mhValid => rfl, fun mhValid => rfl, ?_⟩
  intro mhValid s hdd
  cases hpc : parseCore s.toList with
  | none =>
    unfold parseIpfsPath
    rw [hpc]
  | some segs =>
    rw [parseCore_noDD s.toList segs hpc] at hdd
    simp at hdd

/-- Witness for claim C6: a concrete path with an empty interior segment is
rejected. -/
theorem parse_rejects_empty_and_double_slash_witness :
    hasDD (String.toList "a//b") = true ∧
    parseIpfsPath mvDemo "a//b" = .error .invalidPath :=
  ⟨by decide, parse_rejects_empty_and_double_slash.2.2 mvDemo "a//b" (by decide)⟩

/-- Claim C7: a syntactically well-formed path whose first segment fails the
identifier-validity check is rejected with the same invalid-path error. -/
theorem parse_invalid_root_rejected
    (mhValid : String → Bool) (s : String) (root : List Char)
    (links : List (List Char))
    (hsyn : parseCore s.toList = some (root :: links))
    (hmv : mhValid (String.mk root) = false) :
    parseIpfsPath mhValid s = .error .invalidPath := by
  unfold parseIpfsPath
  rw [hsyn]
  simp [hmv]

/-- Witness for claim C7: QmA slash x is well-formed but an all-rejecting
identifier check makes parsing fail. -/
theorem parse_invalid_root_rejected_witness :
    parseIpfsPath mvNone "QmA/x" = .error .invalidPath :=
  parse_invalid_root_rejected mvNone "QmA/x" ['Q', 'm', 'A'] [['x']]
    (by decide) (by decide)

/-- Counterexample to claim C8 as stated: the grammar accepts /ipfs/abc, yet
prepending the recognized marker to it yields a rejected path, because the
marker is stripped at most once. -/
theorem parse_prepend_counterexample :
    parseIpfsPath mvAbc "/ipfs/abc" = .ok ⟨"abc", []⟩ ∧
    parseIpfsPath mvAbc ("/ipfs/" ++ "/ipfs/abc") = .error .invalidPath ∧
    parseIpfsPath mvAbc ("/ipfs/" ++ "/ipfs/abc") ≠ parseIpfsPath mvAbc "/ipfs/abc" :=
  ⟨by decide, by decide, by decide⟩

/-- Claim C8 amended: for every accepted path string that does not itself
begin with the marker, prepending the marker leaves the parse result
unchanged; and root slash a slash b parses to root with links a and b when the
root passes the identifier check. -/
theorem parse_prepend_amended :
    (∀ (mhValid : String → Bool) (s : String) (segs : List (List Char)),
        parseCore s.toList = some segs →
        s.toList.take 6 ≠ ipfsMarker →
        parseIpfsPath mhValid ("/ipfs/" ++ s) = parseIpfsPath mhValid s) ∧
    (∀ mhValid : String → Bool, mhValid "root" = true →
        parseIpfsPath mhValid "root/a/b" = .ok ⟨"root", ["a", "b"]⟩) := by
  constructor
  · intro mhValid s segs hacc hnm
    have hcore : parseCore (("/ipfs/" ++ s).toList) = parseCore s.toList := by
      rw [toList_marker_append]
      unfold parseCore
      rw [stripMarker_append]
      unfold stripMarker
      rw [if_neg hnm]
    unfold parseIpfsPath
    rw [hcore]
  · intro mhValid hmv
    have hred : parseIpfsPath mhValid "root/a/b" =
        if mhValid "root" then .ok ⟨"root", ["a", "b"]⟩ else .error .invalidPath := rfl
    rw [hred, if_pos hmv]

/-- Witness for the amended claim C8. -/
theorem parse_prepend_amended_witness :
    parseIpfsPath mvDemo ("/ipfs/" ++ "QmA/x") = parseIpfsPath mvDemo "QmA/x" ∧
    parseIpfsPath mvRoot "root/a/b" = .ok ⟨"root", ["a", "b"]⟩ :=
  ⟨parse_prepend_amended.1 mvDemo "QmA/x" [['Q', 'm', 'A'], ['x']]
      (by decide) (by decide),
   parse_prepend_amended.2 mvRoot (by decide)⟩

/-- Claim C9: when a fetched node's link list decomposes into a front with no
link of the wanted name followed by a matching link, traversal follows that
first match, never consulting anything behind it. -/
theorem duplicate_links_first_wins
    (graph : List Nat → Except String GraphNode) (h : List Nat)
    (n : String) (rest : List String) (node : GraphNode)
    (pre : List Link) (l : Link) (post : List Link)
    (hnode : graph h = .ok node)
    (hlinks : node.links = pre ++ l :: post)
    (hpre : ∀ x ∈ pre, (x.name == n) = false)
    (hl : (l.name == n) = true) :
    follow graph h (n :: rest) =
      (h :: (follow graph l.multihash rest).1, (follow graph l.multihash rest).2) := by
  have hfind : node.links.find? (fun x => x.name == n) = some l := by
    rw [hlinks]
    exact find?_first _ pre l post hpre hl
  conv_lhs => unfold follow
  simp only [hnode, hfind]

/-- Witness for claim C9: a node with two links both named a; traversal picks
the first, whose target stores 2, not the later duplicate targeting 3. -/
theorem duplicate_links_first_wins_witness :
    follow graphDup [1] ["a"] =
      ([1] :: (follow graphDup [2] []).1, (follow graphDup [2] []).2) ∧
    follow graphDup [1] ["a"] = ([[1], [2]], .ok [2]) :=
  ⟨duplicate_links_first_wins graphDup [1] "a" []
      ⟨[1], [⟨"a", [2]⟩, ⟨"a", [3]⟩]⟩ [] ⟨"a", [2]⟩ [⟨"a", [3]⟩]
      (by decide) (by decide) (by simp) (by decide),
   by decide⟩

/-- Claim C10: every non-string input makes the per-input callback fire more
than once, both when the bytes validation fails and when it succeeds, because
the classification branch does not return and execution falls through into
text parsing of the non-string value. -/
theorem raw_input_multiple_callbacks
    (mhValid : String → Bool) (validBytes : List Nat → Bool)
    (fromB58 : String → List Nat) (graph : List Nat → Except String GraphNode)
    (b : List Nat) :
    1 < (processOne mhValid validBytes fromB58 graph (.raw b)).1.length ∧
    (validBytes b = false →
      (processOne mhValid validBytes fromB58 graph (.raw b)).1 =
        [.err .invalidMultihash, .ok b, .err .typeError]) ∧
    (validBytes b = true →
      (processOne mhValid validBytes fromB58 graph (.raw b)).1 =
        [.ok b, .err .typeError]) := by
  cases hv : validBytes b <;> simp [processOne, hv]

/-- Witness for claim C10 at a validation-failing and a validation-passing
non-string input. -/
theorem raw_input_multiple_callbacks_witness :
    (processOne mvDemo vbDemo fbDemo graphDemo (.raw [0])).1 =
      [.err .invalidMultihash, .ok [0], .err .typeError] ∧
    (processOne mvDemo vbDemo fbDemo graphDemo (.raw [0, 1])).1 =
      [.ok [0, 1], .err .typeError] :=
  ⟨(raw_input_multiple_callbacks mvDemo vbDemo fbDemo graphDemo [0]).2.1 (by decide),
   (raw_input_multiple_callbacks mvDemo vbDemo fbDemo graphDemo [0, 1]).2.2 (by decide)⟩

end Ipfs
